import Mathlib

/-!
Shallow embedding of the word-segmentation core of `namegen.py`.

Modelling conventions:
* Python strings are modelled as `List Char`; the accumulator list
  `nonmatching` is a `List (List Char)` and `''.flatten` is `List.flatten`.
* A rule is a function `List Char → Option (Bool × Nat)`; `none` models a
  Python runtime error (for example `what[0]` raised on an empty list).
* The `while` loop of `PartitionGroup` is embedded with explicit fuel: the
  loop returns `none` when the fuel is exhausted before the letters run out,
  so nontermination of the Python loop shows up as `none` for every fuel.
* Random draws are passed in explicitly: the per-iteration resolution of the
  `random` split position is a function `Nat → Pos` (iteration index to
  resolved position), and each invocation of `choose_randomly` consumes the
  front of a list of resolved `random.choice` outcomes over the six entries
  of `METHOD_MAPPING`.  Quantifying over these oracles quantifies over every
  resolved outcome of the random draws.
-/

/-- Modelled from the spec: `VOWEL_SET` comes from the absent `namegen_utils`
module.  The spec's `"queue"` example in §8 excludes `y`, leaving the five
standard vowels. -/
def VOWEL_SET : List Char := ['a', 'e', 'i', 'o', 'u']

/-- Modelled from the spec: `COMMON_LETTERS` comes from the absent
`namegen_utils` module; the spec describes it as a fixed set of
consonant-frequency letters.  No claim depends on its exact contents. -/
def COMMON_LETTERS : List Char := ['l', 'n', 'r', 's', 't']

/-- The type of a match rule: from the remaining letters to
`(matched, consumeCount)`, with `none` modelling a Python exception. -/
abbrev RuleFn := List Char → Option (Bool × Nat)

/-- Embedding of `letters`: always matches and consumes a single letter. -/
def letters (_what : List Char) : Option (Bool × Nat) :=
  some (true, 1)

/-- Embedding of `eachvowel`: `what[0] in VOWEL_SET`.  On an empty list the
Python subscript raises `IndexError`, modelled by `none`. -/
def eachvowel : RuleFn
  | [] => none
  | c :: _ => some (VOWEL_SET.contains c, 1)

/-- Embedding of the counting loop inside `groupedvowels`: the length of the
front run of vowels (the `for`/`break` loop over `what`). -/
def vowelRunLength : List Char → Nat
  | [] => 0
  | c :: rest => if VOWEL_SET.contains c then vowelRunLength rest + 1 else 0

/-- Embedding of `groupedvowels`: matches iff the front vowel run has length
at least 2, consuming the whole run; otherwise `(False, 1)`. -/
def groupedvowels (what : List Char) : Option (Bool × Nat) :=
  if 2 ≤ vowelRunLength what then some (true, vowelRunLength what)
  else some (false, 1)

/-- Embedding of `vowelconsonant` (rule name `opposing`): matches iff at
least two letters remain and the first two differ in vowel class. -/
def vowelconsonant : RuleFn
  | a :: b :: _ =>
      if VOWEL_SET.contains a ≠ VOWEL_SET.contains b then some (true, 2)
      else some (false, 1)
  | _ => some (false, 1)

/-- Embedding of `twocommon`: matches iff at least two letters remain and
both of the first two are common letters. -/
def twocommon (what : List Char) : Option (Bool × Nat) :=
  if 2 ≤ what.length ∧ (what.take 2).all (fun x => COMMON_LETTERS.contains x)
  then some (true, 2)
  else some (false, 1)

/-- The keys of `METHOD_MAPPING`, in source order. -/
inductive RuleName where
  | letters
  | eachvowel
  | groupedvowels
  | opposing
  | twocommon
  | random
deriving DecidableEq

/-- The key list of `METHOD_MAPPING`: six entries, in source order. -/
def METHOD_MAPPING_KEYS : List RuleName :=
  [RuleName.letters, RuleName.eachvowel, RuleName.groupedvowels,
   RuleName.opposing, RuleName.twocommon, RuleName.random]

/-- Embedding of `choose_randomly`: each element of `draws` is the resolved
outcome of one `random.choice(list(METHOD_MAPPING.items()))` over the six
entries of `METHOD_MAPPING`.  A draw of `random` selects `choose_randomly`
itself, which recurses on a fresh draw; an exhausted draw list is `none`
(the resolution never reached a non-random rule). -/
def choose_randomly : List RuleName → RuleFn
  | [], _ => none
  | RuleName.letters :: _, what => letters what
  | RuleName.eachvowel :: _, what => eachvowel what
  | RuleName.groupedvowels :: _, what => groupedvowels what
  | RuleName.opposing :: _, what => vowelconsonant what
  | RuleName.twocommon :: _, what => twocommon what
  | RuleName.random :: rest, what => choose_randomly rest what

/-- The function a non-random `METHOD_MAPPING` key maps to; the `random` key
maps to `choose_randomly`, which needs a draw list, so it is excluded here
and modelled by `choose_randomly` directly. -/
def applyBase : RuleName → RuleFn
  | RuleName.letters => letters
  | RuleName.eachvowel => eachvowel
  | RuleName.groupedvowels => groupedvowels
  | RuleName.opposing => vowelconsonant
  | RuleName.twocommon => twocommon
  | RuleName.random => fun _ => none

/-- A resolved split position: one of the three concrete stitching modes. -/
inductive Pos where
  | before
  | after
  | around
deriving DecidableEq

/-- The `position` argument of `PartitionGroup`, including `random`. -/
inductive SplitPosition where
  | before
  | after
  | around
  | random
deriving DecidableEq

/-- Per-iteration position resolution: when `original_position == 'random'`,
iteration `k` uses the `k`-th resolved `random.choice(('before', 'after',
'around'))` outcome; otherwise the configured position is used as is. -/
def resolvePos (orig : SplitPosition) (σ : Nat → Pos) (k : Nat) : Pos :=
  match orig with
  | SplitPosition.before => Pos.before
  | SplitPosition.after => Pos.after
  | SplitPosition.around => Pos.around
  | SplitPosition.random => σ k

/-- Embedding of `nonmatching[-1] += s`.  The code keeps `nonmatching`
nonempty (it is seeded with one accumulator and only appended to), so the
`[]` case is unreachable; Python would raise `IndexError` there. -/
def appendLast : List (List Char) → List Char → List (List Char)
  | [], s => [s]
  | [a], s => [a ++ s]
  | a :: b :: rest, s => a :: appendLast (b :: rest) s

/-- Embedding of the `while letterlist:` loop of `PartitionGroup`, for one
word.  `rule k` is the rule invoked at matching attempt `k` (for a
non-random configuration this family is constant; for `choose_randomly`
each attempt may behave as a different resolved rule), `σ` resolves the
`random` split position per iteration, and `fuel` bounds the number of
iterations: `none` means the fuel ran out with letters remaining. -/
def partitionLoop (rule : Nat → RuleFn) (orig : SplitPosition) (σ : Nat → Pos) :
    Nat → Nat → List Char → List (List Char) → Option (List (List Char))
  | _, _, [], nonmatching => some nonmatching
  | 0, _, _ :: _, _ => none
  | fuel + 1, k, c :: rest, nonmatching =>
    match rule k (c :: rest) with
    | none => none
    | some (mtch, consume) =>
      if mtch then
        match resolvePos orig σ k with
        | Pos.before =>
            partitionLoop rule orig σ fuel (k + 1) ((c :: rest).drop consume)
              (nonmatching ++ [(c :: rest).take consume])
        | Pos.after =>
            partitionLoop rule orig σ fuel (k + 1) ((c :: rest).drop consume)
              (appendLast nonmatching ((c :: rest).take consume) ++ [[]])
        | Pos.around =>
            partitionLoop rule orig σ fuel (k + 1) ((c :: rest).drop consume)
              (nonmatching ++ [(c :: rest).take consume, []])
      else
        partitionLoop rule orig σ fuel (k + 1) rest (appendLast nonmatching [c])

/-- One word's pass through `PartitionGroup`: run the loop from the seeded
accumulator list `['']` and filter out empty accumulators, as in
`yield tuple(x for x in nonmatching if x)`. -/
def PartitionWord (rule : Nat → RuleFn) (orig : SplitPosition) (σ : Nat → Pos)
    (fuel : Nat) (word : List Char) : Option (List (List Char)) :=
  (partitionLoop rule orig σ fuel 0 word [[]]).map
    (List.filter (fun x => !x.isEmpty))

/-- Embedding of the generator `PartitionGroup` over a corpus: one output
per input word, in order.  Word `i` uses the oracle slices `rule i` and
`σ i`, so distinct words draw independently. -/
def PartitionGroup (rule : Nat → Nat → RuleFn) (orig : SplitPosition)
    (σ : Nat → Nat → Pos) (fuel : Nat) :
    List (List Char) → List (Option (List (List Char)))
  | [] => []
  | w :: rest =>
      PartitionWord (rule 0) orig (σ 0) fuel w ::
        PartitionGroup (fun i => rule (i + 1)) orig (fun i => σ (i + 1)) fuel rest

/-- A fixed position oracle used to instantiate witnesses. -/
def σ0 : Nat → Pos := fun _ => Pos.before

/-- Appending to the last accumulator appends to the joined contents. -/
lemma appendLast_join (nm : List (List Char)) (s : List Char) :
    (appendLast nm s).flatten = nm.flatten ++ s := by
  induction nm with
  | nil => simp [appendLast]
  | cons a rest ih =>
    cases rest with
    | nil => simp [appendLast]
    | cons b rest2 => simp [appendLast, ih]

/-- Filtering out empty accumulators does not change the joined contents. -/
lemma join_filter_nonempty (nm : List (List Char)) :
    (nm.filter (fun x => !x.isEmpty)).flatten = nm.flatten := by
  induction nm with
  | nil => rfl
  | cons a rest ih =>
    cases a with
    | nil => simpa [List.filter_cons] using ih
    | cons c cs => simp [List.filter_cons, ih]

/-- Loop invariant of `partitionLoop`: whenever the loop terminates, the
joined accumulators equal the joined input accumulators followed by the
letters that were still to be consumed.  Every letter is assigned to
exactly one accumulator exactly once, for any rule and any consume count. -/
lemma partitionLoop_join (rule : Nat → RuleFn) (orig : SplitPosition)
    (σ : Nat → Pos) :
    ∀ fuel k l nm res, partitionLoop rule orig σ fuel k l nm = some res →
      res.flatten = nm.flatten ++ l := by
  intro fuel
  induction fuel with
  | zero =>
    intro k l nm res h
    cases l with
    | nil =>
      simp only [partitionLoop, Option.some.injEq] at h
      subst h; simp
    | cons c rest => simp [partitionLoop] at h
  | succ fuel ih =>
    intro k l nm res h
    cases l with
    | nil =>
      simp only [partitionLoop, Option.some.injEq] at h
      subst h; simp
    | cons c rest =>
      rw [partitionLoop] at h
      cases hr : rule k (c :: rest) with
      | none => rw [hr] at h; cases h
      | some pr =>
        obtain ⟨b, n⟩ := pr
        simp only [hr] at h
        cases b with
        | false =>
          rw [if_neg Bool.false_ne_true] at h
          have := ih (k + 1) rest (appendLast nm [c]) res h
          simpa [appendLast_join] using this
        | true =>
          rw [if_pos rfl] at h
          cases hp : resolvePos orig σ k with
          | before =>
            rw [hp] at h
            have := ih (k + 1) ((c :: rest).drop n)
              (nm ++ [(c :: rest).take n]) res h
            simpa [List.flatten_append, List.append_assoc] using this
          | after =>
            rw [hp] at h
            have := ih (k + 1) ((c :: rest).drop n)
              (appendLast nm ((c :: rest).take n) ++ [[]]) res h
            simpa [List.flatten_append, appendLast_join, List.append_assoc]
              using this
          | around =>
            rw [hp] at h
            have := ih (k + 1) ((c :: rest).drop n)
              (nm ++ [(c :: rest).take n, []]) res h
            simpa [List.flatten_append, List.append_assoc] using this

/-- Round trip for one word, conditional on termination: whatever the rule
family, the split position, the position oracle and the fuel, if the
partitioner yields segments then their concatenation is the word. -/
lemma PartitionWord_join (rule : Nat → RuleFn) (orig : SplitPosition)
    (σ : Nat → Pos) (fuel : Nat) (word : List Char) (segs : List (List Char))
    (h : PartitionWord rule orig σ fuel word = some segs) :
    segs.flatten = word := by
  unfold PartitionWord at h
  cases hl : partitionLoop rule orig σ fuel 0 word [[]] with
  | none => rw [hl] at h; cases h
  | some nm =>
    rw [hl] at h
    simp only [Option.map_some', Option.some.injEq] at h
    subst h
    have := partitionLoop_join rule orig σ fuel 0 word [[]] nm hl
    simpa [join_filter_nonempty] using this

/-- The match/consume contract: on every nonempty input the rule returns a
value (no exception), and a match consumes at least one letter. -/
def GoodRule (f : RuleFn) : Prop :=
  ∀ l, l ≠ [] → ∃ b n, f l = some (b, n) ∧ (b = true → 1 ≤ n)

/-- Membership in the five non-random entries of the rule library. -/
def isLibraryRule (f : RuleFn) : Prop :=
  f = letters ∨ f = eachvowel ∨ f = groupedvowels ∨ f = vowelconsonant ∨
    f = twocommon

lemma letters_good : GoodRule letters :=
  fun _ _ => ⟨true, 1, rfl, fun _ => le_refl 1⟩

lemma eachvowel_good : GoodRule eachvowel := by
  intro l hl
  cases l with
  | nil => exact absurd rfl hl
  | cons c rest => exact ⟨VOWEL_SET.contains c, 1, rfl, fun _ => le_refl 1⟩

lemma groupedvowels_good : GoodRule groupedvowels := by
  intro l _
  by_cases h : 2 ≤ vowelRunLength l
  · exact ⟨true, vowelRunLength l, by simp [groupedvowels, h],
      fun _ => le_trans (by norm_num) h⟩
  · exact ⟨false, 1, by simp [groupedvowels, h], by simp⟩

lemma vowelconsonant_good : GoodRule vowelconsonant := by
  intro l _
  match l with
  | [] => exact ⟨false, 1, rfl, by simp⟩
  | [a] => exact ⟨false, 1, rfl, by simp⟩
  | a :: b :: rest =>
    by_cases h : VOWEL_SET.contains a ≠ VOWEL_SET.contains b
    · exact ⟨true, 2, by simp only [vowelconsonant]; rw [if_pos h],
        fun _ => by norm_num⟩
    · exact ⟨false, 1, by simp only [vowelconsonant]; rw [if_neg h], by simp⟩

lemma twocommon_good : GoodRule twocommon := by
  intro l _
  by_cases h : 2 ≤ l.length ∧ (l.take 2).all (fun x => COMMON_LETTERS.contains x)
  · exact ⟨true, 2, by simp only [twocommon]; rw [if_pos h],
      fun _ => by norm_num⟩
  · exact ⟨false, 1, by simp only [twocommon]; rw [if_neg h], by simp⟩

lemma isLibraryRule_good (f : RuleFn) (hf : isLibraryRule f) : GoodRule f := by
  rcases hf with h | h | h | h | h <;> subst h
  · exact letters_good
  · exact eachvowel_good
  · exact groupedvowels_good
  · exact vowelconsonant_good
  · exact twocommon_good

/-- Termination of the loop: with any rule family obeying the contract, fuel
equal to the number of remaining letters suffices, since every iteration
removes at least one letter. -/
lemma partitionLoop_total (rule : Nat → RuleFn) (hr : ∀ k, GoodRule (rule k))
    (orig : SplitPosition) (σ : Nat → Pos) :
    ∀ fuel l, l.length ≤ fuel → ∀ k nm,
      ∃ res, partitionLoop rule orig σ fuel k l nm = some res := by
  intro fuel
  induction fuel with
  | zero =>
    intro l hl k nm
    have hnil : l = [] := List.eq_nil_of_length_eq_zero (Nat.le_zero.mp hl)
    subst hnil
    exact ⟨nm, rfl⟩
  | succ fuel ih =>
    intro l hl k nm
    cases l with
    | nil => exact ⟨nm, rfl⟩
    | cons c rest =>
      obtain ⟨b, n, hbn, hn⟩ := hr k (c :: rest) (by simp)
      cases b with
      | false =>
        obtain ⟨res, hres⟩ := ih rest (by simpa using Nat.succ_le_succ_iff.mp hl)
          (k + 1) (appendLast nm [c])
        refine ⟨res, ?_⟩
        rw [partitionLoop]
        simp only [hbn]
        rw [if_neg Bool.false_ne_true]
        exact hres
      | true =>
        have hn1 : 1 ≤ n := hn rfl
        have hlen : ((c :: rest).drop n).length ≤ fuel := by
          simp only [List.length_drop, List.length_cons]
          simp only [List.length_cons] at hl
          omega
        cases hp : resolvePos orig σ k with
        | before =>
          obtain ⟨res, hres⟩ := ih ((c :: rest).drop n) hlen (k + 1)
            (nm ++ [(c :: rest).take n])
          refine ⟨res, ?_⟩
          rw [partitionLoop]
          simp only [hbn]
          rw [if_pos trivial, hp]
          exact hres
        | after =>
          obtain ⟨res, hres⟩ := ih ((c :: rest).drop n) hlen (k + 1)
            (appendLast nm ((c :: rest).take n) ++ [[]])
          refine ⟨res, ?_⟩
          rw [partitionLoop]
          simp only [hbn]
          rw [if_pos trivial, hp]
          exact hres
        | around =>
          obtain ⟨res, hres⟩ := ih ((c :: rest).drop n) hlen (k + 1)
            (nm ++ [(c :: rest).take n, []])
          refine ⟨res, ?_⟩
          rw [partitionLoop]
          simp only [hbn]
          rw [if_pos trivial, hp]
          exact hres

/-- The loop exits as soon as no letters remain, for any fuel. -/
lemma partitionLoop_nil (rule : Nat → RuleFn) (orig : SplitPosition)
    (σ : Nat → Pos) (fuel k : Nat) (nm : List (List Char)) :
    partitionLoop rule orig σ fuel k [] nm = some nm := by
  cases fuel with
  | zero => rfl
  | succ fuel => rfl

/-- Claim C1: for every word, every rule family drawn from the five library
rules (covering each per-attempt resolved outcome of the `random` rule),
every split position and every resolved outcome of the `random` position
draws, the partitioner terminates within `w.length` attempts and the
concatenation of its segments, with no separator, is exactly the word. -/
theorem partition_roundtrip (rule : Nat → RuleFn)
    (h : ∀ k, isLibraryRule (rule k)) (orig : SplitPosition) (σ : Nat → Pos)
    (w : List Char) :
    ∃ segs, PartitionWord rule orig σ w.length w = some segs ∧
      segs.flatten = w := by
  obtain ⟨nm, hnm⟩ := partitionLoop_total rule
    (fun k => isLibraryRule_good _ (h k)) orig σ w.length w (le_refl _) 0 [[]]
  have hw : PartitionWord rule orig σ w.length w =
      some (nm.filter (fun x => !x.isEmpty)) := by
    unfold PartitionWord
    rw [hnm]
    rfl
  exact ⟨_, hw, PartitionWord_join rule orig σ w.length w _ hw⟩

/-- Witness for C1 at a concrete word and rule. -/
theorem partition_roundtrip_instance :
    ∃ segs, PartitionWord (fun _ => letters) SplitPosition.around σ0
      (['a', 'b'].length) ['a', 'b'] = some segs ∧ segs.flatten = ['a', 'b'] :=
  partition_roundtrip (fun _ => letters) (fun _ => Or.inl rfl)
    SplitPosition.around σ0 ['a', 'b']

/-- Claim C2: for every word, every rule family, every split position and
every oracle, every segment the partitioner yields is nonempty: the empty
accumulators are filtered out before yielding. -/
theorem partition_segments_nonempty (rule : Nat → RuleFn)
    (orig : SplitPosition) (σ : Nat → Pos) (fuel : Nat) (w : List Char)
    (segs : List (List Char))
    (h : PartitionWord rule orig σ fuel w = some segs) :
    segs.all (fun s => !s.isEmpty) = true := by
  unfold PartitionWord at h
  cases hl : partitionLoop rule orig σ fuel 0 w [[]] with
  | none => rw [hl] at h; cases h
  | some nm =>
    rw [hl] at h
    simp only [Option.map_some', Option.some.injEq] at h
    subst h
    refine List.all_eq_true.mpr ?_
    intro s hs
    exact (List.mem_filter.mp hs).2

/-- Witness for C2 at a concrete word and rule. -/
theorem partition_segments_nonempty_instance :
    List.all [['a']] (fun s => !s.isEmpty) = true :=
  partition_segments_nonempty (fun _ => letters) SplitPosition.around σ0 1
    ['a'] [['a']] (by decide)

/-- Claim C3: partitioning `"food"` with `groupedvowels` yields
`("f", "oo", "d")` around, `("f", "ood")` before and `("foo", "d")` after,
whatever the position oracle (it is not consulted). -/
theorem partition_food_groupedvowels (σ : Nat → Pos) :
    PartitionWord (fun _ => groupedvowels) SplitPosition.around σ 4
        ['f', 'o', 'o', 'd'] = some [['f'], ['o', 'o'], ['d']] ∧
      PartitionWord (fun _ => groupedvowels) SplitPosition.before σ 4
        ['f', 'o', 'o', 'd'] = some [['f'], ['o', 'o', 'd']] ∧
      PartitionWord (fun _ => groupedvowels) SplitPosition.after σ 4
        ['f', 'o', 'o', 'd'] = some [['f', 'o', 'o'], ['d']] :=
  ⟨rfl, rfl, rfl⟩

/-- Claim C4: `groupedvowels` matches exactly when the front run of
consecutive vowels has length at least 2, consuming that whole run, and
otherwise reports no match with consume count 1 (so runs of length 0 or 1
fall back to per-letter unmatched consumption). -/
theorem groupedvowels_front_vowel_run (what : List Char) :
    groupedvowels what =
      if 2 ≤ (what.takeWhile (fun c => VOWEL_SET.contains c)).length then
        some (true, (what.takeWhile (fun c => VOWEL_SET.contains c)).length)
      else some (false, 1) := by
  have hrun : ∀ l : List Char, vowelRunLength l =
      (l.takeWhile (fun c => VOWEL_SET.contains c)).length := by
    intro l
    induction l with
    | nil => rfl
    | cons c rest ih =>
      cases h : VOWEL_SET.contains c with
      | true =>
        rw [vowelRunLength, List.takeWhile_cons]
        simp only [h, eq_self_iff_true, if_true, List.length_cons, ih]
      | false =>
        rw [vowelRunLength, List.takeWhile_cons]
        simp only [h, Bool.false_eq_true, if_false, List.length_nil]
  rw [groupedvowels, hrun]

/-- Claim C5: with any rule family obeying the consume contract, the loop
for `w` terminates within `w.length` matching attempts (the fuel), and each
of the five supplied non-random rules obeys the contract. -/
theorem partition_terminates_linear (rule : Nat → RuleFn)
    (h : ∀ k, GoodRule (rule k)) (orig : SplitPosition) (σ : Nat → Pos)
    (w : List Char) :
    (∃ segs, PartitionWord rule orig σ w.length w = some segs) ∧
      GoodRule letters ∧ GoodRule eachvowel ∧ GoodRule groupedvowels ∧
      GoodRule vowelconsonant ∧ GoodRule twocommon := by
  refine ⟨?_, letters_good, eachvowel_good, groupedvowels_good,
    vowelconsonant_good, twocommon_good⟩
  obtain ⟨nm, hnm⟩ := partitionLoop_total rule h orig σ w.length w
    (le_refl _) 0 [[]]
  refine ⟨nm.filter (fun x => !x.isEmpty), ?_⟩
  unfold PartitionWord
  rw [hnm]
  rfl

/-- Witness for C5 at a concrete word and rule. -/
theorem partition_terminates_linear_instance :
    (∃ segs, PartitionWord (fun _ => letters) SplitPosition.around σ0
        (['a', 'b'].length) ['a', 'b'] = some segs) ∧
      GoodRule letters ∧ GoodRule eachvowel ∧ GoodRule groupedvowels ∧
      GoodRule vowelconsonant ∧ GoodRule twocommon :=
  partition_terminates_linear (fun _ => letters) (fun _ => letters_good)
    SplitPosition.around σ0 ['a', 'b']

/-- Claim C6 counterexample: the selection pool of `choose_randomly` is
`METHOD_MAPPING` itself, which has six entries and contains the `random`
entry; a draw resolving to that entry delegates to `choose_randomly` itself
(here exhausting the draw list), not to one of the other five rules. -/
theorem choose_randomly_self_selection :
    RuleName.random ∈ METHOD_MAPPING_KEYS ∧ METHOD_MAPPING_KEYS.length = 6 ∧
      choose_randomly [RuleName.random] ['a'] = none := by decide

/-- Claim C6 as amended: `choose_randomly` draws uniformly from all six
`METHOD_MAPPING` entries; a draw of the `random` entry recurses with a fresh
draw, and the first non-random draw's rule receives the remaining letters. -/
theorem choose_randomly_delegates (n : Nat) (d : RuleName)
    (rest : List RuleName) (what : List Char) (hd : d ≠ RuleName.random) :
    choose_randomly (List.replicate n RuleName.random ++ d :: rest) what =
      applyBase d what := by
  induction n with
  | zero =>
    cases d
    · rfl
    · rfl
    · rfl
    · rfl
    · rfl
    · exact absurd rfl hd
  | succ n ih =>
    rw [List.replicate_succ, List.cons_append]
    exact ih

/-- Witness for the amended C6 at a concrete draw sequence. -/
theorem choose_randomly_delegates_instance :
    choose_randomly (List.replicate 1 RuleName.random ++
        RuleName.letters :: []) ['a'] = applyBase RuleName.letters ['a'] :=
  choose_randomly_delegates 1 RuleName.letters [] ['a'] (by decide)

/-- A pathological rule violating the consume contract: it always reports a
match and consumes nothing. -/
def zeroConsumeRule : RuleFn := fun _ => some (true, 0)

/-- Claim C7 counterexample: on a one-letter word, the partitioner given the
zero-consuming rule neither aborts nor produces output; fifty loop
iterations still leave letters remaining. -/
theorem zero_consume_no_abort :
    PartitionWord (fun _ => zeroConsumeRule) SplitPosition.around σ0 50
      ['a'] = none := by decide

/-- Claim C7 as amended: `PartitionGroup` performs no contract check; a rule
returning a match with consume count 0 leaves the remaining letters
unchanged, so the loop never terminates: the fuel-indexed embedding returns
`none` for every fuel. -/
theorem zero_consume_stalls (orig : SplitPosition) (σ : Nat → Pos)
    (l : List Char) (hl : l ≠ []) :
    ∀ fuel k nm,
      partitionLoop (fun _ => zeroConsumeRule) orig σ fuel k l nm = none := by
  intro fuel
  induction fuel with
  | zero =>
    intro k nm
    cases l with
    | nil => exact absurd rfl hl
    | cons c rest => rfl
  | succ fuel ih =>
    intro k nm
    cases l with
    | nil => exact absurd rfl hl
    | cons c rest =>
      rw [partitionLoop]
      simp only [zeroConsumeRule]
      rw [if_pos trivial]
      cases resolvePos orig σ k with
      | before => exact ih (k + 1) _
      | after => exact ih (k + 1) _
      | around => exact ih (k + 1) _

/-- Witness for the amended C7 at a concrete word and fuel. -/
theorem zero_consume_stalls_instance :
    partitionLoop (fun _ => zeroConsumeRule) SplitPosition.around σ0 7 0
      ['a'] [[]] = none :=
  zero_consume_stalls SplitPosition.around σ0 ['a'] (by decide) 7 0 [[]]

/-- Claim C8: with a fixed rule and a split position other than `random`,
the partitioner never consults the position oracle: two runs with arbitrary
oracles produce identical results, so repeated partitioning is
deterministic and stable. -/
theorem partition_deterministic (f : RuleFn) (orig : SplitPosition)
    (ho : orig ≠ SplitPosition.random) (σ₁ σ₂ : Nat → Pos) (fuel : Nat)
    (w : List Char) :
    PartitionWord (fun _ => f) orig σ₁ fuel w =
      PartitionWord (fun _ => f) orig σ₂ fuel w := by
  have hres : ∀ k, resolvePos orig σ₁ k = resolvePos orig σ₂ k := by
    intro k
    cases orig
    · rfl
    · rfl
    · rfl
    · exact absurd rfl ho
  suffices hloop : ∀ fuel k l nm,
      partitionLoop (fun _ => f) orig σ₁ fuel k l nm =
        partitionLoop (fun _ => f) orig σ₂ fuel k l nm by
    unfold PartitionWord
    rw [hloop]
  intro fuel
  induction fuel with
  | zero =>
    intro k l nm
    cases l with
    | nil => rfl
    | cons c rest => rfl
  | succ fuel ih =>
    intro k l nm
    cases l with
    | nil => rfl
    | cons c rest =>
      rw [partitionLoop, partitionLoop]
      cases hf : f (c :: rest) with
      | none => rfl
      | some pr =>
        obtain ⟨b, n⟩ := pr
        simp only [hf]
        cases b with
        | false =>
          rw [if_neg Bool.false_ne_true, if_neg Bool.false_ne_true]
          exact ih (k + 1) rest (appendLast nm [c])
        | true =>
          rw [if_pos rfl, if_pos rfl, hres k]
          cases resolvePos orig σ₂ k with
          | before => exact ih (k + 1) _ _
          | after => exact ih (k + 1) _ _
          | around => exact ih (k + 1) _ _

/-- Witness for C8 at a concrete word, rule and pair of oracles. -/
theorem partition_deterministic_instance :
    PartitionWord (fun _ => letters) SplitPosition.around σ0 2 ['a', 'b'] =
      PartitionWord (fun _ => letters) SplitPosition.around
        (fun _ => Pos.after) 2 ['a', 'b'] :=
  partition_deterministic letters SplitPosition.around (by decide) σ0
    (fun _ => Pos.after) 2 ['a', 'b']

/-- Claim C9: the `while letterlist:` guard guarantees that rules are only
ever invoked on a nonempty remaining-letters list: the partitioner's output
is unchanged under arbitrary modification of the rules' behavior on the
empty list, so no rule need handle (or survive) empty input. -/
theorem rules_never_called_on_empty (r₁ r₂ : Nat → RuleFn)
    (h : ∀ k l, l ≠ [] → r₁ k l = r₂ k l) (orig : SplitPosition)
    (σ : Nat → Pos) (fuel : Nat) (w : List Char) :
    PartitionWord r₁ orig σ fuel w = PartitionWord r₂ orig σ fuel w := by
  suffices hloop : ∀ fuel k l nm,
      partitionLoop r₁ orig σ fuel k l nm =
        partitionLoop r₂ orig σ fuel k l nm by
    unfold PartitionWord
    rw [hloop]
  intro fuel
  induction fuel with
  | zero =>
    intro k l nm
    cases l with
    | nil => rfl
    | cons c rest => rfl
  | succ fuel ih =>
    intro k l nm
    cases l with
    | nil => rfl
    | cons c rest =>
      rw [partitionLoop, partitionLoop, h k (c :: rest) (by simp)]
      cases hf : r₂ k (c :: rest) with
      | none => rfl
      | some pr =>
        obtain ⟨b, n⟩ := pr
        simp only [hf]
        cases b with
        | false =>
          rw [if_neg Bool.false_ne_true, if_neg Bool.false_ne_true]
          exact ih (k + 1) rest (appendLast nm [c])
        | true =>
          rw [if_pos rfl, if_pos rfl]
          cases resolvePos orig σ k with
          | before => exact ih (k + 1) _ _
          | after => exact ih (k + 1) _ _
          | around => exact ih (k + 1) _ _

/-- Witness for C9: a rule that raises on empty input and one that matches
there give identical partitions. -/
theorem rules_never_called_on_empty_instance :
    PartitionWord (fun _ => letters) SplitPosition.around σ0 2 ['a', 'b'] =
      PartitionWord (fun _ l => if l.isEmpty then none else letters l)
        SplitPosition.around σ0 2 ['a', 'b'] :=
  rules_never_called_on_empty (fun _ => letters)
    (fun _ l => if l.isEmpty then none else letters l)
    (fun _ l hl => by
      cases l with
      | nil => exact absurd rfl hl
      | cons c rest => rfl)
    SplitPosition.around σ0 2 ['a', 'b']

/-- Claim C10: the empty word makes the loop body never run; the seeded
empty accumulator is filtered out and the empty tuple is still yielded.
The driver yields exactly one output per input word, in corpus order, and
entry `i` of the output depends only on entry `i` of the corpus (no
cross-word state). -/
theorem partition_group_empty_word (rule : Nat → Nat → RuleFn)
    (orig : SplitPosition) (σ : Nat → Nat → Pos) (fuel : Nat)
    (entries : List (List Char)) :
    PartitionWord (rule 0) orig (σ 0) fuel [] = some [] ∧
      (PartitionGroup rule orig σ fuel entries).length = entries.length ∧
      ∀ i, (PartitionGroup rule orig σ fuel entries)[i]? =
        (entries[i]?).map
          (fun w => PartitionWord (rule i) orig (σ i) fuel w) := by
  refine ⟨?_, ?_, ?_⟩
  · unfold PartitionWord
    rw [partitionLoop_nil]
    rfl
  · induction entries generalizing rule σ with
    | nil => rfl
    | cons w rest ih =>
      simpa [PartitionGroup] using ih (fun i => rule (i + 1)) (fun i => σ (i + 1))
  · intro i
    induction entries generalizing rule σ i with
    | nil => simp [PartitionGroup]
    | cons w rest ih =>
      cases i with
      | zero => simp [PartitionGroup]
      | succ i =>
        simpa [PartitionGroup] using
          ih (fun j => rule (j + 1)) (fun j => σ (j + 1)) i
